import Mathlib

/-
Verification of the mars-gym relevance-list and ranking-metrics pipeline.

The development shallowly embeds the core functions of
`recommendation/task/ifood.py` and `recommendation/data.py`:

* `_generate_relevance_list`, `_generate_relevance_list_from_merchant_scores`
  and `_generate_random_relevance_list` become Lean functions over exact
  rationals (Python floats are modelled as `ℚ`, integer indices as `ℤ`);
  a Python dict is modelled as a partial map `Option`-valued function, and a
  `KeyError` on a missing key becomes an `Except` error carrying the key.
* Python's `sorted(..., reverse=True)` on `(score, merchant_idx)` tuples is a
  stable sort under the reversed lexicographic tuple comparison.  Since that
  comparison totally orders distinct tuples, every stable sort (indeed every
  sort) agrees with `List.insertionSort` under the reflexive reversed
  lexicographic order, which we use as the model.
* the filtering, aggregation and metadata-validation steps of the Luigi tasks
  become list-level functions.
-/

namespace MarsGym

/-! ### Model of Python `sorted(zip(scores, merchant_idx_list), reverse=True)` -/

/-- Reversed lexicographic comparison on `(score, merchant_idx)` tuples:
`pyGe a b` holds when Python's tuple comparison puts `a` before (or equal to)
`b` under `reverse=True`, i.e. `a ≥ b` in the lexicographic order that compares
scores first and merchant indices second. -/
def pyGe (a b : ℚ × ℤ) : Prop :=
  b.1 < a.1 ∨ (b.1 = a.1 ∧ b.2 ≤ a.2)

instance : DecidableRel pyGe := fun _ _ => by
  unfold pyGe; exact inferInstance

instance : IsTotal (ℚ × ℤ) pyGe := ⟨by
  intro a b
  rcases lt_trichotomy a.1 b.1 with h | h | h
  · exact Or.inr (Or.inl h)
  · rcases le_total b.2 a.2 with h2 | h2
    · exact Or.inl (Or.inr ⟨h.symm, h2⟩)
    · exact Or.inr (Or.inr ⟨h, h2⟩)
  · exact Or.inl (Or.inl h)⟩

instance : IsTrans (ℚ × ℤ) pyGe := ⟨by
  intro a b c hab hbc
  rcases hab with h1 | ⟨h1, h1'⟩
  · rcases hbc with h2 | ⟨h2, h2'⟩
    · exact Or.inl (h2.trans h1)
    · exact Or.inl (lt_of_le_of_lt (le_of_eq h2) h1)
  · rcases hbc with h2 | ⟨h2, h2'⟩
    · exact Or.inl (lt_of_lt_of_le h2 (le_of_eq h1))
    · exact Or.inr ⟨h2.trans h1, h2'.trans h1'⟩⟩

/-- Python's `sorted(zip(scores, merchant_idx_list), reverse=True)`
(ifood.py lines 30-31 and 43-44): stable descending sort of the
`(score, merchant_idx)` tuples under lexicographic tuple comparison. -/
def pySortedDesc (pairs : List (ℚ × ℤ)) : List (ℚ × ℤ) :=
  List.insertionSort pyGe pairs

/-- The sorted merchant-index list extracted from the sorted `(score, idx)`
tuples (the list comprehension on ifood.py lines 30-31 / 43-44). -/
def sorted_merchant_idx_list (pairs : List (ℚ × ℤ)) : List ℤ :=
  (pySortedDesc pairs).map Prod.snd

/-- The final list comprehension of the builders (ifood.py lines 32, 37, 45):
1 at every position holding the ordered merchant, 0 elsewhere. -/
def relevanceOf (ordered_merchant_idx : ℤ) (l : List ℤ) : List ℕ :=
  l.map (fun m => if m = ordered_merchant_idx then 1 else 0)

/-- Score lookup for every candidate (ifood.py line 29):
`scores_per_tuple[(account_idx, merchant_idx)]` for each merchant in order.
Python's dict indexing raises `KeyError(key)` at the first missing key, which
the embedding models as an `Except` error carrying that key; on success it
returns the `(score, merchant_idx)` tuples that line 30 zips together. -/
def lookupScores (account_idx : ℤ) (scores_per_tuple : ℤ × ℤ → Option ℚ) :
    List ℤ → Except (ℤ × ℤ) (List (ℚ × ℤ))
  | [] => Except.ok []
  | m :: ms =>
    match scores_per_tuple (account_idx, m) with
    | none => Except.error (account_idx, m)
    | some s =>
      match lookupScores account_idx scores_per_tuple ms with
      | Except.error p => Except.error p
      | Except.ok rest => Except.ok ((s, m) :: rest)

/-- Embedding of `_generate_relevance_list` (ifood.py lines 27-32). -/
def generate_relevance_list (account_idx ordered_merchant_idx : ℤ)
    (merchant_idx_list : List ℤ) (scores_per_tuple : ℤ × ℤ → Option ℚ) :
    Except (ℤ × ℤ) (List ℕ) :=
  match lookupScores account_idx scores_per_tuple merchant_idx_list with
  | Except.error p => Except.error p
  | Except.ok pairs =>
    Except.ok (relevanceOf ordered_merchant_idx (sorted_merchant_idx_list pairs))

/-- Score lookup keyed by merchant alone (ifood.py line 42):
`scores_per_merchant[merchant_idx]`; a missing merchant raises `KeyError`. -/
def lookupMerchantScores (scores_per_merchant : ℤ → Option ℚ) :
    List ℤ → Except ℤ (List (ℚ × ℤ))
  | [] => Except.ok []
  | m :: ms =>
    match scores_per_merchant m with
    | none => Except.error m
    | some s =>
      match lookupMerchantScores scores_per_merchant ms with
      | Except.error p => Except.error p
      | Except.ok rest => Except.ok ((s, m) :: rest)

/-- Embedding of `_generate_relevance_list_from_merchant_scores`
(ifood.py lines 40-45). -/
def generate_relevance_list_from_merchant_scores (ordered_merchant_idx : ℤ)
    (merchant_idx_list : List ℤ) (scores_per_merchant : ℤ → Option ℚ) :
    Except ℤ (List ℕ) :=
  match lookupMerchantScores scores_per_merchant merchant_idx_list with
  | Except.error p => Except.error p
  | Except.ok pairs =>
    Except.ok (relevanceOf ordered_merchant_idx (sorted_merchant_idx_list pairs))

/-- A second definition following the spec's words, for comparison with the
code: a stable sort of the scored candidates over score descending ONLY, so
that equal-score candidates keep their original candidate-list order. -/
def specStableSortDesc (pairs : List (ℚ × ℤ)) : List (ℚ × ℤ) :=
  List.insertionSort (fun a b => b.1 ≤ a.1) pairs

/-- The merchant order the spec's tie-break policy would produce. -/
def spec_sorted_merchant_idx_list (pairs : List (ℚ × ℤ)) : List ℤ :=
  (specStableSortDesc pairs).map Prod.snd

/-- C1 counterexample.  Candidate pool `[1, 2]`, both candidates scored `0` for
account `0`, ordered merchant `1`.  The claim's stable sort over
(score desc, original position) keeps the input order `[1, 2]` and would emit
relevance list `[1, 0]`; the code compares the whole `(score, merchant_idx)`
tuple in reverse, producing candidate order `[2, 1]` and relevance list
`[0, 1]`.  Equal-score candidates therefore do NOT keep their relative input
order. -/
theorem c1_tie_break_counterexample :
    generate_relevance_list 0 1 [1, 2]
      (fun k => if k = (0, 1) then some 0 else if k = (0, 2) then some 0 else none) =
      Except.ok [0, 1] ∧
    sorted_merchant_idx_list [((0 : ℚ), (1 : ℤ)), (0, 2)] = [2, 1] ∧
    spec_sorted_merchant_idx_list [((0 : ℚ), (1 : ℤ)), (0, 2)] = [1, 2] ∧
    sorted_merchant_idx_list [((0 : ℚ), (1 : ℤ)), (0, 2)] ≠
      spec_sorted_merchant_idx_list [((0 : ℚ), (1 : ℤ)), (0, 2)] := by
  refine ⟨rfl, rfl, rfl, ?_⟩
  intro h
  simp only [sorted_merchant_idx_list, spec_sorted_merchant_idx_list] at h
  exact absurd h (by decide)

/-- C1 (amended): the builder's candidate order is a permutation of the scored
candidates sorted by the reversed lexicographic order on the whole
`(score, merchant_idx)` tuple; in particular two candidates with equal scores
are ordered by merchant index DESCENDING, not by original list position. -/
theorem c1_amended_sort_order (pairs : List (ℚ × ℤ)) :
    (∃ pairs', pairs'.Perm pairs ∧ List.Sorted pyGe pairs' ∧
      sorted_merchant_idx_list pairs = pairs'.map Prod.snd) ∧
    (∀ (s : ℚ) (m m' : ℤ), m < m' →
      sorted_merchant_idx_list [(s, m), (s, m')] = [m', m]) := by
  constructor
  · exact ⟨pySortedDesc pairs, List.perm_insertionSort pyGe pairs,
      List.sorted_insertionSort pyGe pairs, rfl⟩
  · intro s m m' hmm
    have hng : ¬ pyGe (s, m) (s, m') := by
      unfold pyGe
      push_neg
      exact ⟨le_refl s, fun _ => hmm⟩
    simp [sorted_merchant_idx_list, pySortedDesc, List.insertionSort,
      List.orderedInsert, if_neg hng]

/-- Witness for `c1_amended_sort_order` at the concrete pool of the
counterexample: the hypothesis `1 < 2` is discharged and the equal-score tie
goes to merchant `2` first. -/
theorem c1_amended_sort_order_witness :
    (1 : ℤ) < 2 ∧
    sorted_merchant_idx_list [((0 : ℚ), (1 : ℤ)), (0, 2)] = [2, 1] :=
  ⟨by decide, (c1_amended_sort_order [((0 : ℚ), (1 : ℤ)), (0, 2)]).2 0 1 2 (by decide)⟩

/-! ### Helper lemmas about the builders -/

theorem relevanceOf_length (o : ℤ) (l : List ℤ) :
    (relevanceOf o l).length = l.length := by
  simp [relevanceOf]

theorem relevanceOf_sum (o : ℤ) (l : List ℤ) :
    (relevanceOf o l).sum = l.count o := by
  induction l with
  | nil => simp [relevanceOf]
  | cons x xs ih =>
    by_cases h : x = o <;>
      simp [relevanceOf, List.count_cons, h] at * <;> omega

theorem sorted_merchant_idx_list_count (pairs : List (ℚ × ℤ)) (o : ℤ) :
    (sorted_merchant_idx_list pairs).count o = (pairs.map Prod.snd).count o :=
  ((List.perm_insertionSort pyGe pairs).map Prod.snd).count_eq o

theorem sorted_merchant_idx_list_length (pairs : List (ℚ × ℤ)) :
    (sorted_merchant_idx_list pairs).length = pairs.length := by
  have h := ((List.perm_insertionSort pyGe pairs).map Prod.snd).length_eq
  simpa only [sorted_merchant_idx_list, pySortedDesc, List.length_map] using h

theorem lookupScores_ok (acc : ℤ) (t : ℤ × ℤ → Option ℚ) (l : List ℤ)
    (h : ∀ m ∈ l, (t (acc, m)).isSome) :
    ∃ pairs, lookupScores acc t l = Except.ok pairs ∧ pairs.map Prod.snd = l := by
  induction l with
  | nil => exact ⟨[], rfl, rfl⟩
  | cons m ms ih =>
    obtain ⟨s, hs⟩ := Option.isSome_iff_exists.mp (h m (List.mem_cons_self m ms))
    obtain ⟨rest, hrest, hmap⟩ := ih (fun x hx => h x (List.mem_cons_of_mem _ hx))
    refine ⟨(s, m) :: rest, ?_, ?_⟩
    · simp [lookupScores, hs, hrest]
    · simp [hmap]

theorem lookupScores_error (acc : ℤ) (t : ℤ × ℤ → Option ℚ) (l : List ℤ)
    (h : ∃ m ∈ l, t (acc, m) = none) :
    ∃ p, lookupScores acc t l = Except.error p ∧ t p = none ∧
      p.1 = acc ∧ p.2 ∈ l := by
  induction l with
  | nil => simp at h
  | cons m ms ih =>
    by_cases hm : t (acc, m) = none
    · exact ⟨(acc, m), by simp [lookupScores, hm], hm, rfl,
        List.mem_cons_self m ms⟩
    · obtain ⟨s, hs⟩ := Option.ne_none_iff_exists.mp hm
      have h' : ∃ x ∈ ms, t (acc, x) = none := by
        obtain ⟨x, hx, hxn⟩ := h
        rcases List.mem_cons.mp hx with rfl | hx'
        · exact absurd hxn hm
        · exact ⟨x, hx', hxn⟩
      obtain ⟨p, hp, hpn, hpa, hpm⟩ := ih h'
      refine ⟨p, ?_, hpn, hpa, List.mem_cons_of_mem _ hpm⟩
      simp [lookupScores, hs.symm, hp]

theorem lookupMerchantScores_ok (t : ℤ → Option ℚ) (l : List ℤ)
    (h : ∀ m ∈ l, (t m).isSome) :
    ∃ pairs, lookupMerchantScores t l = Except.ok pairs ∧
      pairs.map Prod.snd = l := by
  induction l with
  | nil => exact ⟨[], rfl, rfl⟩
  | cons m ms ih =>
    obtain ⟨s, hs⟩ := Option.isSome_iff_exists.mp (h m (List.mem_cons_self m ms))
    obtain ⟨rest, hrest, hmap⟩ := ih (fun x hx => h x (List.mem_cons_of_mem _ hx))
    refine ⟨(s, m) :: rest, ?_, ?_⟩
    · simp [lookupMerchantScores, hs, hrest]
    · simp [hmap]

/-- C2: for a transaction whose ordered merchant occurs exactly once in the
candidate pool and a score table covering every needed pair (resp. every
candidate merchant), both relevance-list builders succeed and return a vector
of length `|merchant_idx_list|` whose elements sum to exactly 1. -/
theorem c2_relevance_vector_sums_to_one (ordered : ℤ) (l : List ℤ)
    (hcount : l.count ordered = 1) :
    (∀ (acc : ℤ) (t : ℤ × ℤ → Option ℚ), (∀ m ∈ l, (t (acc, m)).isSome) →
      ∃ v, generate_relevance_list acc ordered l t = Except.ok v ∧
        v.length = l.length ∧ v.sum = 1) ∧
    (∀ t : ℤ → Option ℚ, (∀ m ∈ l, (t m).isSome) →
      ∃ v, generate_relevance_list_from_merchant_scores ordered l t = Except.ok v ∧
        v.length = l.length ∧ v.sum = 1) := by
  constructor
  · intro acc t h
    obtain ⟨pairs, hok, hmap⟩ := lookupScores_ok acc t l h
    refine ⟨relevanceOf ordered (sorted_merchant_idx_list pairs), ?_, ?_, ?_⟩
    · simp [generate_relevance_list, hok]
    · rw [relevanceOf_length, sorted_merchant_idx_list_length]
      have := congrArg List.length hmap
      simpa using this
    · rw [relevanceOf_sum, sorted_merchant_idx_list_count, hmap, hcount]
  · intro t h
    obtain ⟨pairs, hok, hmap⟩ := lookupMerchantScores_ok t l h
    refine ⟨relevanceOf ordered (sorted_merchant_idx_list pairs), ?_, ?_, ?_⟩
    · simp [generate_relevance_list_from_merchant_scores, hok]
    · rw [relevanceOf_length, sorted_merchant_idx_list_length]
      have := congrArg List.length hmap
      simpa using this
    · rw [relevanceOf_sum, sorted_merchant_idx_list_count, hmap, hcount]

/-- Witness for `c2_relevance_vector_sums_to_one` on the pool `[1, 2, 3]` with
ordered merchant `2` and the constant score table. -/
theorem c2_relevance_vector_sums_to_one_witness :
    ([1, 2, 3] : List ℤ).count 2 = 1 ∧
    (∃ v, generate_relevance_list 0 2 [1, 2, 3] (fun _ => some 0) = Except.ok v ∧
      v.length = ([1, 2, 3] : List ℤ).length ∧ v.sum = 1) ∧
    (∃ v, generate_relevance_list_from_merchant_scores 2 [1, 2, 3]
        (fun _ => some 0) = Except.ok v ∧
      v.length = ([1, 2, 3] : List ℤ).length ∧ v.sum = 1) :=
  ⟨by decide,
   (c2_relevance_vector_sums_to_one 2 [1, 2, 3] (by decide)).1 0 (fun _ => some 0)
     (fun _ _ => rfl),
   (c2_relevance_vector_sums_to_one 2 [1, 2, 3] (by decide)).2 (fun _ => some 0)
     (fun _ _ => rfl)⟩

/-- C4: if some candidate's `(account, merchant)` pair is absent from the score
table, the builder fails with the offending pair as diagnostic (Python raises
`KeyError((account_idx, merchant_idx))`); if every pair is present, every
lookup succeeds and the builder returns a relevance list. -/
theorem c4_missing_pair_is_fatal (acc ordered : ℤ) (l : List ℤ)
    (t : ℤ × ℤ → Option ℚ) :
    ((∃ m ∈ l, t (acc, m) = none) →
      ∃ p, generate_relevance_list acc ordered l t = Except.error p ∧
        t p = none ∧ p.1 = acc ∧ p.2 ∈ l) ∧
    ((∀ m ∈ l, (t (acc, m)).isSome) →
      ∃ v, generate_relevance_list acc ordered l t = Except.ok v) := by
  constructor
  · intro h
    obtain ⟨p, hp, hpn, hpa, hpm⟩ := lookupScores_error acc t l h
    exact ⟨p, by simp [generate_relevance_list, hp], hpn, hpa, hpm⟩
  · intro h
    obtain ⟨pairs, hok, _⟩ := lookupScores_ok acc t l h
    exact ⟨relevanceOf ordered (sorted_merchant_idx_list pairs),
      by simp [generate_relevance_list, hok]⟩

/-- Witness for `c4_missing_pair_is_fatal`: with the empty score table the pool
`[5]` fails on pair `(0, 5)`; with the constant table the same pool succeeds. -/
theorem c4_missing_pair_is_fatal_witness :
    (∃ m ∈ ([5] : List ℤ), (fun _ : ℤ × ℤ => (none : Option ℚ)) (0, m) = none) ∧
    (∃ p, generate_relevance_list 0 5 [5] (fun _ => (none : Option ℚ)) =
        Except.error p ∧ (fun _ : ℤ × ℤ => (none : Option ℚ)) p = none ∧
        p.1 = 0 ∧ p.2 ∈ ([5] : List ℤ)) ∧
    (∃ v, generate_relevance_list 0 5 [5] (fun _ => some (0 : ℚ)) =
        Except.ok v) :=
  ⟨⟨5, List.mem_cons_self 5 [], rfl⟩,
   (c4_missing_pair_is_fatal 0 5 [5] (fun _ => none)).1
     ⟨5, List.mem_cons_self 5 [], rfl⟩,
   (c4_missing_pair_is_fatal 0 5 [5] (fun _ => some 0)).2 (fun _ _ => rfl)⟩

/-! ### The order-filtering step (C3) -/

/-- One row of the indexed orders table read by the relevance-list tasks. -/
structure IfoodOrder where
  order_id : ℤ
  account_idx : ℤ
  merchant_idx : ℤ
  merchant_idx_list : List ℤ

/-- The row predicate of the filtering step (ifood.py lines 93, 228, 279):
`row["merchant_idx"] in row["merchant_idx_list"]`. -/
def orderedMerchantInList (o : IfoodOrder) : Bool :=
  decide (o.merchant_idx ∈ o.merchant_idx_list)

/-- Embedding of
`orders_df[orders_df.apply(lambda row: row["merchant_idx"] in row["merchant_idx_list"], axis=1)]`
(ifood.py lines 92-93, 227-228, 278-279). -/
def filterOrdersWithOrderedMerchant (orders : List IfoodOrder) : List IfoodOrder :=
  orders.filter orderedMerchantInList

/-- C3: an order survives the filtering step iff its ordered merchant occurs in
its candidate list; offending orders are silently dropped, so the output row
count is the input row count minus the number of offending orders. -/
theorem c3_exclusion_filter (orders : List IfoodOrder) :
    (∀ o, o ∈ filterOrdersWithOrderedMerchant orders ↔
      o ∈ orders ∧ o.merchant_idx ∈ o.merchant_idx_list) ∧
    (filterOrdersWithOrderedMerchant orders).length =
      orders.length - orders.countP (fun o => !orderedMerchantInList o) := by
  constructor
  · intro o
    simp [filterOrdersWithOrderedMerchant, List.mem_filter, orderedMerchantInList]
  · have h := List.length_eq_countP_add_countP orderedMerchantInList orders
    have h2 : (filterOrdersWithOrderedMerchant orders).length =
        orders.countP orderedMerchantInList :=
      (List.countP_eq_length_filter _ _).symm
    have h3 : orders.countP (fun o => !orderedMerchantInList o) =
        orders.countP (fun a => decide ¬ orderedMerchantInList a = true) := by
      apply List.countP_congr
      intro a _
      simp
    omega

/-! ### Most-popular scoring (C5) -/

/-- Accumulate one `(merchant, buys)` observation into the running
per-merchant sums: the groupby-sum of ifood.py line 270 realised as a single
pass over the interaction rows. -/
def addToGroup (acc : List (ℤ × ℚ)) (key : ℤ) (v : ℚ) : List (ℤ × ℚ) :=
  match acc with
  | [] => [(key, v)]
  | (k, s) :: rest =>
    if k = key then (k, s + v) :: rest else (k, s) :: addToGroup rest key v

/-- Embedding of `interactions_df.groupby("merchant_idx")["buys"].sum()`
followed by the dict comprehension (ifood.py lines 270-273): the mapping from
each merchant occurring in the corpus to the sum of its `buys` column, built
by folding over the interaction rows `(account_idx, merchant_idx, buys)`.
The account component is never consulted. -/
def mostPopularScores (rows : List (ℤ × ℤ × ℚ)) : List (ℤ × ℚ) :=
  rows.foldl (fun acc r => addToGroup acc r.2.1 r.2.2) []

/-- Dict lookup in the per-merchant score dictionary. -/
def lookupMerchant (d : List (ℤ × ℚ)) (m : ℤ) : Option ℚ :=
  (d.find? (fun e => decide (e.1 = m))).map Prod.snd

/-- The exact sum of the `buys` values of every corpus row for a merchant. -/
def merchantBuysSum (rows : List (ℤ × ℤ × ℚ)) (m : ℤ) : ℚ :=
  ((rows.filter (fun r => decide (r.2.1 = m))).map (fun r => r.2.2)).sum

theorem lookupMerchant_cons (k : ℤ) (s : ℚ) (d : List (ℤ × ℚ)) (m : ℤ) :
    lookupMerchant ((k, s) :: d) m =
      if k = m then some s else lookupMerchant d m := by
  by_cases h : k = m <;> simp [lookupMerchant, List.find?_cons, h]

theorem lookupMerchant_addToGroup (d : List (ℤ × ℚ)) (key : ℤ) (v : ℚ) (m : ℤ) :
    lookupMerchant (addToGroup d key v) m =
      if m = key then some ((lookupMerchant d m).getD 0 + v)
      else lookupMerchant d m := by
  induction d with
  | nil =>
    by_cases h : m = key
    · subst h
      simp [addToGroup, lookupMerchant]
    · simp [addToGroup, lookupMerchant, h, Ne.symm h]
  | cons e rest ih =>
    obtain ⟨k, s⟩ := e
    by_cases hk : k = key
    · subst hk
      by_cases hm : m = k
      · subst hm
        simp [addToGroup, lookupMerchant_cons]
      · simp [addToGroup, lookupMerchant_cons, hm, Ne.symm hm]
    · by_cases hm : m = k
      · subst hm
        simp [addToGroup, hk, lookupMerchant_cons, Ne.symm hk]
      · simp [addToGroup, hk, lookupMerchant_cons, hm, Ne.symm hm, ih]

theorem mostPopular_foldl (rows : List (ℤ × ℤ × ℚ)) :
    ∀ (d : List (ℤ × ℚ)) (m : ℤ),
      lookupMerchant (rows.foldl (fun acc r => addToGroup acc r.2.1 r.2.2) d) m =
        if m ∈ rows.map (fun r => r.2.1) ∨ lookupMerchant d m ≠ none
        then some ((lookupMerchant d m).getD 0 + merchantBuysSum rows m)
        else none := by
  induction rows with
  | nil =>
    intro d m
    cases h : lookupMerchant d m <;> simp [merchantBuysSum, h]
  | cons r rs ih =>
    intro d m
    simp only [List.foldl_cons]
    rw [ih (addToGroup d r.2.1 r.2.2) m]
    by_cases hm : m = r.2.1
    · subst hm
      cases h : lookupMerchant d r.2.1 <;>
        simp [lookupMerchant_addToGroup, h, merchantBuysSum, List.filter_cons,
          add_assoc]
    · have hrm : ¬ r.2.1 = m := fun h => hm h.symm
      have hfilter : merchantBuysSum (r :: rs) m = merchantBuysSum rs m := by
        simp [merchantBuysSum, List.filter_cons, hrm]
      rw [lookupMerchant_addToGroup]
      simp only [if_neg hm, hfilter]
      refine if_congr ?_ rfl rfl
      constructor
      · exact fun h => Or.elim h (fun h1 => Or.inl (List.mem_cons_of_mem _ h1)) Or.inr
      · rintro (h1 | h2)
        · rcases List.mem_cons.mp h1 with h3 | h3
          · exact absurd h3 hm
          · exact Or.inl h3
        · exact Or.inr h2

/-- C5: the most-popular score dictionary maps every merchant occurring in the
interaction corpus to the exact sum of that merchant's `buys` values over the
whole corpus (and contains nothing else), and the scores are independent of
the accounts: rewriting the account column arbitrarily leaves the dictionary
unchanged.  The construction is a pure function of the corpus, so re-running
on the same corpus yields identical scores. -/
theorem c5_most_popular_scores (rows : List (ℤ × ℤ × ℚ)) (m : ℤ) :
    (lookupMerchant (mostPopularScores rows) m =
      if m ∈ rows.map (fun r => r.2.1) then some (merchantBuysSum rows m)
      else none) ∧
    (∀ f : ℤ × ℤ × ℚ → ℤ,
      mostPopularScores (rows.map (fun r => (f r, r.2.1, r.2.2))) =
        mostPopularScores rows) := by
  constructor
  · have h := mostPopular_foldl rows [] m
    have hnone : lookupMerchant ([] : List (ℤ × ℚ)) m = none := rfl
    rw [hnone] at h
    show lookupMerchant (rows.foldl (fun acc r => addToGroup acc r.2.1 r.2.2) []) m = _
    rw [h]
    refine if_congr ?_ ?_ rfl
    · simp
    · simp
  · intro f
    simp [mostPopularScores, List.foldl_map]

/-! ### Ranking metrics (C9) and the evaluation summary (C6) -/

/-- Modelled from the spec: `rank_metrics.average_precision` is imported by
ifood.py (line 19) but the `rank_metrics` module is not among the source
files.  The spec (section 4.3) defines it: for each 1-indexed position `i`
with `rel[i] = 1`, `precision@i` is the count of 1s in `rel[1..i]` divided by
`i`, and the average precision is the mean of these values over all such
positions, with 0 when the vector has no 1s.  Values are exact rationals. -/
def average_precision (rel : List ℕ) : ℚ :=
  let hits := (List.range rel.length).filter (fun i => decide (rel.getD i 0 = 1))
  if hits.length = 0 then 0
  else ((hits.map (fun i => ((rel.take (i + 1)).count 1 : ℚ) / (i + 1))).sum) /
    hits.length

/-- Modelled from the spec: `DCG@k = sum over i = 1..min(k, len rel) of
rel[i] / log2(i + 1)` (here written with 0-indexed positions). -/
noncomputable def dcg_at_k (rel : List ℕ) (k : ℕ) : ℝ :=
  ((List.range (min k rel.length)).map
    (fun i => (rel.getD i 0 : ℝ) / Real.logb 2 (i + 2))).sum

/-- Modelled from the spec: the best achievable `DCG@k` given the number of
relevant items, i.e. with all the 1s packed into the top positions. -/
noncomputable def idcg_at_k (rel : List ℕ) (k : ℕ) : ℝ :=
  ((List.range (min k (rel.count 1))).map
    (fun i => (1 : ℝ) / Real.logb 2 (i + 2))).sum

/-- Modelled from the spec: `NDCG@k = DCG@k / IDCG@k`, defined as 0 when
`IDCG@k = 0`. -/
noncomputable def ndcg_at_k (rel : List ℕ) (k : ℕ) : ℝ :=
  if idcg_at_k rel k = 0 then 0 else dcg_at_k rel k / idcg_at_k rel k

/-- The summary record dumped to metrics.json (ifood.py lines 192-203). -/
structure EvalMetricsSummary where
  count : ℕ
  average_precision : ℝ
  ndcg_at_5 : ℝ
  ndcg_at_10 : ℝ
  ndcg_at_15 : ℝ
  ndcg_at_20 : ℝ
  ndcg_at_50 : ℝ

/-- Embedding of the metric aggregation of `EvaluateIfoodModel.run`
(ifood.py lines 161-203) on the parsed relevance lists: per-row metric
columns followed by pandas column means (sum divided by row count) and
`count = len(df)`. -/
noncomputable def evaluateIfoodModelSummary (rels : List (List ℕ)) :
    EvalMetricsSummary :=
  { count := rels.length
    average_precision :=
      ((rels.map (fun r => ((average_precision r : ℚ) : ℝ))).sum) / rels.length
    ndcg_at_5 := ((rels.map (fun r => ndcg_at_k r 5)).sum) / rels.length
    ndcg_at_10 := ((rels.map (fun r => ndcg_at_k r 10)).sum) / rels.length
    ndcg_at_15 := ((rels.map (fun r => ndcg_at_k r 15)).sum) / rels.length
    ndcg_at_20 := ((rels.map (fun r => ndcg_at_k r 20)).sum) / rels.length
    ndcg_at_50 := ((rels.map (fun r => ndcg_at_k r 50)).sum) / rels.length }

/-- C6: for a non-empty collection of relevance vectors the summary's count is
the number of vectors, every summary metric is the arithmetic mean (sum
divided by count) of the per-vector metric, and the whole summary is invariant
under any reordering of the vectors, so the processing order cannot affect the
result. -/
theorem c6_aggregation_invariant (rels rels' : List (List ℕ))
    (_hne : rels ≠ []) (hperm : rels.Perm rels') :
    (evaluateIfoodModelSummary rels).count = rels.length ∧
    (evaluateIfoodModelSummary rels).average_precision =
      ((rels.map (fun r => ((average_precision r : ℚ) : ℝ))).sum) / rels.length ∧
    (evaluateIfoodModelSummary rels).ndcg_at_5 =
      ((rels.map (fun r => ndcg_at_k r 5)).sum) / rels.length ∧
    (evaluateIfoodModelSummary rels).ndcg_at_10 =
      ((rels.map (fun r => ndcg_at_k r 10)).sum) / rels.length ∧
    (evaluateIfoodModelSummary rels).ndcg_at_15 =
      ((rels.map (fun r => ndcg_at_k r 15)).sum) / rels.length ∧
    (evaluateIfoodModelSummary rels).ndcg_at_20 =
      ((rels.map (fun r => ndcg_at_k r 20)).sum) / rels.length ∧
    (evaluateIfoodModelSummary rels).ndcg_at_50 =
      ((rels.map (fun r => ndcg_at_k r 50)).sum) / rels.length ∧
    evaluateIfoodModelSummary rels = evaluateIfoodModelSummary rels' := by
  refine ⟨rfl, rfl, rfl, rfl, rfl, rfl, rfl, ?_⟩
  have hlen := hperm.length_eq
  simp only [evaluateIfoodModelSummary, EvalMetricsSummary.mk.injEq]
  exact ⟨hlen,
    by rw [(hperm.map (fun r => ((average_precision r : ℚ) : ℝ))).sum_eq, hlen],
    by rw [(hperm.map (fun r => ndcg_at_k r 5)).sum_eq, hlen],
    by rw [(hperm.map (fun r => ndcg_at_k r 10)).sum_eq, hlen],
    by rw [(hperm.map (fun r => ndcg_at_k r 15)).sum_eq, hlen],
    by rw [(hperm.map (fun r => ndcg_at_k r 20)).sum_eq, hlen],
    by rw [(hperm.map (fun r => ndcg_at_k r 50)).sum_eq, hlen]⟩

/-- Witness for `c6_aggregation_invariant` at the one-vector collection. -/
theorem c6_aggregation_invariant_witness :
    ([[1]] : List (List ℕ)) ≠ [] ∧
    (evaluateIfoodModelSummary [[1]]).count = 1 :=
  ⟨by decide,
   (c6_aggregation_invariant [[1]] [[1]] (by decide) (List.Perm.refl _)).1⟩

/-- C9: concrete values of the (spec-modelled) average precision, plus the
no-relevant-item edge case: a vector with no 1s scores 0. -/
theorem c9_average_precision_values :
    average_precision [1] = 1 ∧
    average_precision [0, 1] = 1 / 2 ∧
    average_precision [0, 0, 0] = 0 ∧
    (∀ rel : List ℕ, 1 ∉ rel → average_precision rel = 0) := by
  refine ⟨?_, ?_, ?_, ?_⟩
  · have h1 : (List.range ([1] : List ℕ).length).filter
        (fun i => decide (([1] : List ℕ).getD i 0 = 1)) = [0] := by decide
    unfold average_precision
    rw [h1]
    norm_num
  · have h1 : (List.range ([0, 1] : List ℕ).length).filter
        (fun i => decide (([0, 1] : List ℕ).getD i 0 = 1)) = [1] := by decide
    unfold average_precision
    rw [h1]
    norm_num [List.count_cons]
  · have h1 : (List.range ([0, 0, 0] : List ℕ).length).filter
        (fun i => decide (([0, 0, 0] : List ℕ).getD i 0 = 1)) = [] := by decide
    unfold average_precision
    rw [h1]
    norm_num
  · intro rel h
    have hhits : (List.range rel.length).filter
        (fun i => decide (rel.getD i 0 = 1)) = [] := by
      rw [List.filter_eq_nil_iff]
      intro i hi
      simp only [List.mem_range] at hi
      simp only [decide_eq_true_eq]
      intro hg
      exact h (by rw [← hg, List.getD_eq_getElem rel 0 hi]
                  exact List.getElem_mem hi)
    unfold average_precision
    rw [hhits]
    simp

/-- Witness for `c9_average_precision_values` at the all-zero vector. -/
theorem c9_average_precision_values_witness :
    (1 ∉ ([0, 0] : List ℕ)) ∧ average_precision [0, 0] = 0 :=
  ⟨by decide, c9_average_precision_values.2.2.2 [0, 0] (by decide)⟩

/-! ### The textual relevance-list cell encoding (C7) -/

/-- Python's textual rendering of the comma-separated body of a list of
non-negative ints, as `DataFrame.to_csv` writes the `relevance_list` column
(ifood.py line 110): elements separated by a comma and a space. -/
def encodeCellBody : List ℕ → List Char
  | [] => []
  | [x] => Nat.toDigits 10 x
  | x :: y :: xs => Nat.toDigits 10 x ++ ',' :: ' ' :: encodeCellBody (y :: xs)

/-- The full cell text `str(relevance_list)`, e.g. "[1, 0, 0]". -/
def encodeRelevanceCell (l : List ℕ) : List Char :=
  '[' :: (encodeCellBody l ++ [']'])

/-- Consume a maximal run of decimal digits, accumulating their value. -/
def parseDigitsAux : List Char → ℕ → ℕ × List Char
  | c :: cs, acc =>
    if c.isDigit then parseDigitsAux cs (10 * acc + (c.toNat - 48))
    else (acc, c :: cs)
  | [], acc => (acc, [])

/-- Parse one non-negative decimal integer literal. -/
def parseNat : List Char → Option (ℕ × List Char)
  | c :: cs => if c.isDigit then some (parseDigitsAux cs (c.toNat - 48)) else none
  | [] => none

/-- Parse the non-empty comma-separated element list followed by the closing
bracket; `fuel` bounds the number of elements. -/
def parseElems : ℕ → List Char → Option (List ℕ)
  | 0, _ => none
  | fuel + 1, cs =>
    match parseNat cs with
    | none => none
    | some (n, rest) =>
      match rest with
      | ']' :: [] => some [n]
      | ',' :: ' ' :: rest' =>
        match parseElems fuel rest' with
        | none => none
        | some ns => some (n :: ns)
      | _ => none

/-- The literal-sequence parser (`ast.literal_eval` as applied to the cells on
ifood.py line 167), restricted to the list-of-non-negative-int grammar the
relevance-list cells use. -/
def parseRelevanceCell (s : List Char) : Option (List ℕ) :=
  match s with
  | '[' :: rest => if rest = [']'] then some [] else parseElems rest.length rest
  | _ => none

/-- The encoded cell as a string, as it stands in the CSV column. -/
def encodeRelevanceCellStr (l : List ℕ) : String :=
  String.mk (encodeRelevanceCell l)

/-- Cell parsing at the string level. -/
def parseRelevanceCellStr (s : String) : Option (List ℕ) :=
  parseRelevanceCell s.data

theorem encodeCellBody_length_ge (l : List ℕ) (h01 : ∀ x ∈ l, x ≤ 1) :
    l.length ≤ (encodeCellBody l).length := by
  induction l with
  | nil => simp [encodeCellBody]
  | cons x xs ih =>
    have hx : x = 0 ∨ x = 1 := by
      have := h01 x (List.mem_cons_self x xs)
      omega
    cases xs with
    | nil => rcases hx with rfl | rfl <;> decide
    | cons y ys =>
      have ih' := ih (fun a ha => h01 a (List.mem_cons_of_mem x ha))
      have h0 : Nat.toDigits 10 0 = ['0'] := rfl
      have h1 : Nat.toDigits 10 1 = ['1'] := rfl
      rcases hx with rfl | rfl <;>
        simp only [encodeCellBody, h0, h1, List.singleton_append,
          List.length_append, List.length_cons] at ih' ⊢ <;> omega

theorem parseElems_encode (l : List ℕ) :
    l ≠ [] → (∀ x ∈ l, x ≤ 1) →
    ∀ fuel, l.length ≤ fuel →
      parseElems fuel (encodeCellBody l ++ [']']) = some l := by
  induction l with
  | nil => intro hl; exact absurd rfl hl
  | cons x xs ih =>
    intro _ h01 fuel hfuel
    have hx : x = 0 ∨ x = 1 := by
      have := h01 x (List.mem_cons_self x xs)
      omega
    cases fuel with
    | zero => simp at hfuel
    | succ f =>
      cases xs with
      | nil =>
        rcases hx with rfl | rfl <;> rfl
      | cons y ys =>
        have hrec := ih (List.cons_ne_nil y ys)
          (fun a ha => h01 a (List.mem_cons_of_mem x ha)) f
          (by simp only [List.length_cons] at hfuel ⊢; omega)
        have hbody : encodeCellBody (x :: y :: ys) ++ [']'] =
            Nat.toDigits 10 x ++ (',' :: ' ' :: (encodeCellBody (y :: ys) ++ [']'])) := by
          simp [encodeCellBody]
        rcases hx with rfl | rfl
        · rw [hbody]
          have hstep : parseElems (f + 1)
              (Nat.toDigits 10 0 ++ (',' :: ' ' :: (encodeCellBody (y :: ys) ++ [']']))) =
              match parseElems f (encodeCellBody (y :: ys) ++ [']']) with
              | none => none
              | some ns => some (0 :: ns) := rfl
          rw [hstep, hrec]
        · rw [hbody]
          have hstep : parseElems (f + 1)
              (Nat.toDigits 10 1 ++ (',' :: ' ' :: (encodeCellBody (y :: ys) ++ [']']))) =
              match parseElems f (encodeCellBody (y :: ys) ++ [']']) with
              | none => none
              | some ns => some (1 :: ns) := rfl
          rw [hstep, hrec]

/-- C7: writing a 0/1 relevance vector through the textual cell encoding and
re-reading it with the literal-sequence parser returns the identical list. -/
theorem c7_relevance_list_round_trip (l : List ℕ) (h01 : ∀ x ∈ l, x ≤ 1) :
    parseRelevanceCellStr (encodeRelevanceCellStr l) = some l := by
  cases l with
  | nil => rfl
  | cons x xs =>
    have hbodylen := encodeCellBody_length_ge (x :: xs) h01
    have hlen : (x :: xs).length ≤ (encodeCellBody (x :: xs) ++ [']']).length := by
      simp only [List.length_append, List.length_cons, List.length_nil] at *
      omega
    have hparse := parseElems_encode (x :: xs) (List.cons_ne_nil x xs) h01
      ((encodeCellBody (x :: xs) ++ [']']).length) hlen
    have hne : encodeCellBody (x :: xs) ++ [']'] ≠ [']'] := by
      intro heq
      have hl := congrArg List.length heq
      simp only [List.length_append, List.length_cons, List.length_nil] at hl hbodylen
      omega
    have hopen : ∀ R : List Char, parseRelevanceCell ('[' :: R) =
        if R = [']'] then some [] else parseElems R.length R := fun _ => rfl
    show parseRelevanceCell ('[' :: (encodeCellBody (x :: xs) ++ [']'])) = some (x :: xs)
    rw [hopen, if_neg hne]
    exact hparse

/-- Witness for `c7_relevance_list_round_trip` at the vector `[1, 0]`. -/
theorem c7_relevance_list_round_trip_witness :
    (∀ x ∈ ([1, 0] : List ℕ), x ≤ 1) ∧
    parseRelevanceCellStr (encodeRelevanceCellStr [1, 0]) = some [1, 0] :=
  ⟨by decide, c7_relevance_list_round_trip [1, 0] (by decide)⟩

/-! ### Metadata preprocessing (C8) -/

/-- Row comparison by item index, the key `sort_index()` sorts by
(data.py line 34). -/
def metadataIdxLe {α : Type} (a b : ℤ × α) : Prop := a.1 ≤ b.1

instance {α : Type} : DecidableRel (@metadataIdxLe α) := fun a b => by
  unfold metadataIdxLe; exact inferInstance

instance {α : Type} : IsTotal (ℤ × α) metadataIdxLe :=
  ⟨fun a b => le_total a.1 b.1⟩

instance {α : Type} : IsTrans (ℤ × α) metadataIdxLe :=
  ⟨fun _ _ _ hab hbc => le_trans hab hbc⟩

/-- Embedding of `preprocess_metadata_data_frame` (data.py lines 32-44): rows
`(item index, metadata payload)` are sorted by index; if the sorted index
column is not exactly `0, 1, ..., N-1` a `ValueError` is raised, otherwise the
payload column is extracted in sorted order (standing for the metadata
embedding arrays). -/
def preprocess_metadata_data_frame {α : Type} (rows : List (ℤ × α)) :
    Except String (List α) :=
  let sortedRows := List.insertionSort metadataIdxLe rows
  if sortedRows.map Prod.fst = (List.range rows.length).map Int.ofNat
  then Except.ok (sortedRows.map Prod.snd)
  else Except.error "The item index is not contiguous"

/-- C8: metadata preprocessing raises the contiguity `ValueError` exactly when
the sorted item-index column differs from the dense range `0..N-1`, it
produces embeddings exactly when it does not raise (so no embedding exists in
the error case), and the sorted column equals the dense range iff the raw
index column is a permutation of `0..N-1`. -/
theorem c8_metadata_index_validation {α : Type} (rows : List (ℤ × α)) :
    (preprocess_metadata_data_frame rows =
        Except.error "The item index is not contiguous" ↔
      (List.insertionSort metadataIdxLe rows).map Prod.fst ≠
        (List.range rows.length).map Int.ofNat) ∧
    ((∃ e, preprocess_metadata_data_frame rows = Except.ok e) ↔
      (List.insertionSort metadataIdxLe rows).map Prod.fst =
        (List.range rows.length).map Int.ofNat) ∧
    ((List.insertionSort metadataIdxLe rows).map Prod.fst =
        (List.range rows.length).map Int.ofNat ↔
      (rows.map Prod.fst).Perm ((List.range rows.length).map Int.ofNat)) := by
  have hperm0 : (List.insertionSort metadataIdxLe rows).Perm rows :=
    List.perm_insertionSort metadataIdxLe rows
  refine ⟨?_, ?_, ?_⟩
  · by_cases hc : (List.insertionSort metadataIdxLe rows).map Prod.fst =
        (List.range rows.length).map Int.ofNat <;>
      simp [preprocess_metadata_data_frame, hc]
  · by_cases hc : (List.insertionSort metadataIdxLe rows).map Prod.fst =
        (List.range rows.length).map Int.ofNat <;>
      simp [preprocess_metadata_data_frame, hc]
  · constructor
    · intro he
      exact he ▸ (hperm0.map Prod.fst).symm
    · intro hp
      have hsorted : List.Sorted (fun a b : ℤ => a ≤ b)
          ((List.insertionSort metadataIdxLe rows).map Prod.fst) :=
        List.Pairwise.map Prod.fst (fun _ _ h => h)
          (List.sorted_insertionSort metadataIdxLe rows)
      have hrange : List.Sorted (fun a b : ℤ => a ≤ b)
          ((List.range rows.length).map Int.ofNat) :=
        List.Pairwise.map Int.ofNat
          (fun a b h => Int.ofNat_le.mpr (Nat.le_of_lt h))
          (List.pairwise_lt_range rows.length)
      exact List.eq_of_perm_of_sorted ((hperm0.map Prod.fst).trans hp) hsorted hrange

/-! ### Random relevance lists (C10) -/

/-- Swap the entries at positions `i` and `j`: the elementary step that
numpy's in-place Fisher-Yates shuffle performs on the array. -/
def swapEntries (l : List ℤ) (i j : ℕ) : List ℤ :=
  if h : i < l.length ∧ j < l.length then
    (l.set i (l.get ⟨j, h.2⟩)).set j (l.get ⟨i, h.1⟩)
  else l

/-- The Fisher-Yates loop of `np.random.shuffle`: for `i = n-1` down to `1`,
swap position `i` with a drawn position `j ≤ i`.  `draws` supplies the random
draws; step `i` uses the next draw modulo `i + 1`. -/
def fisherYatesAux : List ℕ → ℕ → List ℤ → List ℤ
  | _, 0, l => l
  | [], _ + 1, l => l
  | d :: ds, i + 1, l => fisherYatesAux ds i (swapEntries l (i + 1) (d % (i + 2)))

/-- Model of `np.random.shuffle(x)` for a draw sequence of the generator. -/
def npShuffle (draws : List ℕ) (l : List ℤ) : List ℤ :=
  fisherYatesAux draws (l.length - 1) l

/-- Embedding of `_generate_random_relevance_list` (ifood.py lines 35-37).
`np.random.shuffle` permutes `merchant_idx_list` IN PLACE, so the
state-passing embedding returns the caller-visible post-state of
`merchant_idx_list` as the first component, alongside the relevance list
built from the shuffled order. -/
def generate_random_relevance_list (draws : List ℕ) (ordered_merchant_idx : ℤ)
    (merchant_idx_list : List ℤ) : List ℤ × List ℕ :=
  let shuffled := npShuffle draws merchant_idx_list
  (shuffled, relevanceOf ordered_merchant_idx shuffled)

theorem head_swap_perm (xs : List ℤ) :
    ∀ (m : ℕ) (h : m < xs.length) (x : ℤ),
      (xs.get ⟨m, h⟩ :: xs.set m x).Perm (x :: xs) := by
  induction xs with
  | nil => intro m h; simp at h
  | cons y ys ih =>
    intro m h x
    cases m with
    | zero => exact List.Perm.swap x y ys
    | succ k =>
      have hk : k < ys.length := by
        simp only [List.length_cons] at h
        omega
      have step1 : (ys.get ⟨k, hk⟩ :: y :: ys.set k x).Perm
          (y :: ys.get ⟨k, hk⟩ :: ys.set k x) := List.Perm.swap y (ys.get ⟨k, hk⟩) _
      have step2 : (y :: ys.get ⟨k, hk⟩ :: ys.set k x).Perm (y :: x :: ys) :=
        (ih k hk x).cons y
      have step3 : (y :: x :: ys).Perm (x :: y :: ys) := List.Perm.swap x y ys
      simpa using (step1.trans step2).trans step3

theorem set_set_swap_perm (l : List ℤ) :
    ∀ (i j : ℕ) (hi : i < l.length) (hj : j < l.length),
      ((l.set i (l.get ⟨j, hj⟩)).set j (l.get ⟨i, hi⟩)).Perm l := by
  induction l with
  | nil => intro i j hi; simp at hi
  | cons x xs ih =>
    intro i j hi hj
    cases i with
    | zero =>
      cases j with
      | zero => simp
      | succ k =>
        have hk : k < xs.length := by
          simp only [List.length_cons] at hj
          omega
        simpa using head_swap_perm xs k hk x
    | succ m =>
      have hm : m < xs.length := by
        simp only [List.length_cons] at hi
        omega
      cases j with
      | zero => simpa using head_swap_perm xs m hm x
      | succ k =>
        have hk : k < xs.length := by
          simp only [List.length_cons] at hj
          omega
        simpa using (ih m k hm hk).cons x

theorem swapEntries_perm (l : List ℤ) (i j : ℕ) : (swapEntries l i j).Perm l := by
  by_cases h : i < l.length ∧ j < l.length
  · simp only [swapEntries, dif_pos h]
    exact set_set_swap_perm l i j h.1 h.2
  · simp only [swapEntries, dif_neg h]
    exact List.Perm.refl l

theorem fisherYatesAux_perm (draws : List ℕ) :
    ∀ (i : ℕ) (l : List ℤ), (fisherYatesAux draws i l).Perm l := by
  induction draws with
  | nil =>
    intro i l
    cases i <;> exact List.Perm.refl l
  | cons d ds ih =>
    intro i l
    cases i with
    | zero => exact List.Perm.refl l
    | succ n => exact (ih n _).trans (swapEntries_perm l (n + 1) (d % (n + 2)))

/-- C10: the random relevance-list builder leaves the caller's candidate list
mutated: the post-state of `merchant_idx_list` is the shuffled list, a
permutation of the original, and in general differs from the original (e.g.
pool `[5, 7]` with draw `0` ends as `[7, 5]`); the relevance list is built
from the shuffled order. -/
theorem c10_random_builder_mutates_candidate_list (draws : List ℕ)
    (ordered : ℤ) (l : List ℤ) :
    (generate_random_relevance_list draws ordered l).1 = npShuffle draws l ∧
    ((generate_random_relevance_list draws ordered l).1).Perm l ∧
    (generate_random_relevance_list draws ordered l).2 =
      relevanceOf ordered (npShuffle draws l) ∧
    (generate_random_relevance_list [0] 5 [5, 7]).1 = [7, 5] ∧
    ([7, 5] : List ℤ) ≠ [5, 7] :=
  ⟨rfl, fisherYatesAux_perm draws (l.length - 1) l, rfl, by decide, by decide⟩

end MarsGym
